import Mathlib

/-!
Verification of the LSV (line-separated values) codec: a shallow embedding of
the Go package `lsv` (parameters.go, reader.go, writer.go and the one-shot
splitter `SplitParams`), together with theorems settling the specification
claims about it.

Strings are modelled as `List Char` (Go strings at rune granularity: every
slicing operation in the source happens at rune boundaries, and the scanner
works rune by rune).  Go's `nil`-vs-error return pairs are modelled as
`α × Option RErr` pairs.
-/

namespace Lsv

/-- The zero rune, the default value of an uninitialised Go `rune` variable. -/
def nulChar : Char := Char.ofNat 0

/-- Go's `unicode.IsSpace`: the Unicode White_Space property as tabulated in
the Go `unicode` package (Latin-1 fast path plus the White_Space range table). -/
def isSpace (c : Char) : Bool :=
  let n := c.toNat
  (0x09 ≤ n && n ≤ 0x0D) || n == 0x20 || n == 0x85 || n == 0xA0 || n == 0x1680 ||
  (0x2000 ≤ n && n ≤ 0x200A) || n == 0x2028 || n == 0x2029 || n == 0x202F ||
  n == 0x205F || n == 0x3000

/-- `Parameters` from parameters.go: the three delimiter runes and the
leading-whitespace flag. -/
structure Parameters where
  Comment : Char
  Raw : Char
  Escape : Char
  TrimLeadingSpace : Bool
  deriving DecidableEq, Repr

/-- `DefaultParameters` from parameters.go: comment `#`, raw quote, escape
backslash, trimming enabled. -/
def DefaultParameters : Parameters :=
  { Comment := '#', Raw := '"', Escape := '\\', TrimLeadingSpace := true }

/-- `validDelim` from parameters.go.  A Lean `Char` is always a valid Unicode
scalar value, so Go's `utf8.ValidRune` test is identically true here; the
remaining tests (nonzero, not whitespace, not `utf8.RuneError` = U+FFFD) are
kept verbatim. -/
def validDelim (r : Char) : Bool :=
  r != nulChar && !isSpace r && r != Char.ofNat 0xFFFD

/-- `Parameters.Verify` from parameters.go. -/
def Parameters.Verify (p : Parameters) : Bool :=
  !(p.Comment == p.Raw || p.Comment == p.Escape || p.Raw == p.Escape ||
    !validDelim p.Comment || !validDelim p.Raw || !validDelim p.Escape)

/-- `isChar` from parameters.go: `c` matches `char` and is not escaped, where
escaping consults only the single immediately preceding rune. -/
def isChar (char c prev escapeChar : Char) : Bool :=
  (c == char) && !(prev == escapeChar)

/-- `Parameters.isComment` from parameters.go. -/
def Parameters.isComment (p : Parameters) (c prev : Char) : Bool :=
  isChar p.Comment c prev p.Escape

/-- `Parameters.isRaw` from parameters.go. -/
def Parameters.isRaw (p : Parameters) (c prev : Char) : Bool :=
  isChar p.Raw c prev p.Escape

/-- The scanning loop of `Parameters.trimComment`, tracking the previous rune
(initially the zero rune) and the local `inRaw` flag. -/
def trimCommentAux (p : Parameters) (prev : Char) (inRaw : Bool) : List Char → List Char
  | [] => []
  | c :: rest =>
    if p.isComment c prev && !inRaw then []
    else
      c :: trimCommentAux p c (if p.isRaw c prev && inRaw then false else inRaw) rest

/-- `Parameters.trimComment` from parameters.go: truncate the line at the
first unescaped comment rune that is not inside the raw literal. -/
def Parameters.trimComment (p : Parameters) (line : List Char) (inRaw : Bool) : List Char :=
  trimCommentAux p nulChar inRaw line

/-- Go `strings.TrimRightFunc(line, unicode.IsSpace)`. -/
def trimRight (l : List Char) : List Char :=
  (l.reverse.dropWhile isSpace).reverse

/-- Go `strings.ReplaceAll(line, string(Escape)+string(Comment), string(Comment))`:
non-overlapping left-to-right replacement of the two-rune pattern. -/
def replaceAllEC (p : Parameters) : List Char → List Char
  | [] => []
  | a :: rest =>
    match rest with
    | [] => [a]
    | b :: rest2 =>
      if a == p.Escape && b == p.Comment then p.Comment :: replaceAllEC p rest2
      else a :: replaceAllEC p (b :: rest2)

/-- Result of the backward scan in `readValue` / `SplitParams`: the last
non-whitespace rune `last` (at index `j`), the rune immediately before it
`prev1` (at index `k`), and the rune before that, `prev2`; the zero rune
stands for "not yet assigned", as in the Go code. -/
structure BackScan where
  last : Char
  prev1 : Char
  prev2 : Char
  j : Nat
  k : Nat
  deriving DecidableEq, Repr

/-- The backward scan loop over the reversed line.  Each examined rune's
original index equals the length of the remaining reversed tail. -/
def backScanAux : List Char → Char → Char → Char → Nat → Nat → BackScan
  | [], last, prev1, prev2, j, k => ⟨last, prev1, prev2, j, k⟩
  | c :: rest, last, prev1, prev2, j, k =>
    if !isSpace c && last == nulChar then backScanAux rest c prev1 prev2 rest.length k
    else if last != nulChar && prev1 == nulChar then backScanAux rest last c prev2 j rest.length
    else if last != nulChar && prev1 != nulChar && prev2 == nulChar then ⟨last, prev1, c, j, k⟩
    else backScanAux rest last prev1 prev2 j k

/-- The backward scan of `readValue` / `SplitParams` over a whole line. -/
def backScan (line : List Char) : BackScan :=
  backScanAux line.reverse nulChar nulChar nulChar 0 0

/-- Error values of the package: `io.EOF`, `ErrNoClosingRaw`, `ErrInvalidParams`. -/
inductive RErr where
  | eof
  | noClosingRaw
  | invalidParams
  deriving DecidableEq, Repr

/-- Outcome of processing one physical line: either continue with an updated
`(inRaw, rawString)` state, or a completed value (after which both the reader
and the splitter reset the state). -/
inductive LineStep where
  | skip (inRaw : Bool) (rawString : List Char)
  | value (v : List Char)
  deriving DecidableEq, Repr

/-- The part of the shared loop body of `Reader.readValue` (reader.go) and
`SplitParams` (splitter) after the raw-literal opening has been detected:
comment trimming, then either the raw-literal backward scan or the plain-line
whitespace trim and comment unescape. -/
def processLine2 (p : Parameters) (inRaw : Bool) (rawString line : List Char) : LineStep :=
  let line2 := p.trimComment line inRaw
  if line2.isEmpty then .skip inRaw rawString
  else if inRaw then
    let bs := backScan line2
    if p.isRaw bs.last bs.prev1 then .value (rawString ++ line2.take bs.j)
    else
      let line3 := if bs.last == p.Raw && bs.prev1 == p.Escape
        then line2.take bs.k ++ line2.drop bs.j else line2
      .skip true (rawString ++ line3)
  else
    let line3 := replaceAllEC p (trimRight line2)
    if line3.isEmpty then .skip false rawString else .value line3

/-- One iteration of the shared loop body of `Reader.readValue` (reader.go
lines 110-182) and `SplitParams` (splitter lines 944-1012): leading-space
trimming, blank-line skipping and raw-literal opening, then `processLine2`.
The two Go functions contain this body verbatim; they differ only in what
they do with a completed value. -/
def processLine (p : Parameters) (inRaw : Bool) (rawString line : List Char) : LineStep :=
  if inRaw then processLine2 p true rawString line
  else
    match (if p.TrimLeadingSpace then line.dropWhile isSpace else line) with
    | [] => .skip false rawString
    | c :: tl =>
      if c == p.Raw then processLine2 p true rawString tl
      else processLine2 p false rawString (c :: tl)

/-- The loop of `Reader.readValue`: consume lines until a value is complete.
Returns the Go pair (value-or-error, remaining lines).  On exhaustion inside a
raw literal the accumulated `rawString` is discarded and `ErrNoClosingRaw` is
returned, exactly as in the source. -/
def readValueLoop (p : Parameters) : List (List Char) → Bool → List Char →
    Except RErr (List Char) × List (List Char)
  | [], inRaw, _ => (if inRaw then .error .noClosingRaw else .error .eof, [])
  | line :: rest, inRaw, rs =>
    match processLine p inRaw rs line with
    | .skip i r => readValueLoop p rest i r
    | .value v => (.ok v, rest)

/-- Go `strings.SplitAfter(s, "\n")`: split after every newline, keeping it;
the final chunk (possibly empty) has no newline. -/
def splitAfterNL : List Char → List (List Char)
  | [] => [[]]
  | c :: rest =>
    if c == '\n' then [c] :: splitAfterNL rest
    else
      match splitAfterNL rest with
      | [] => [[c]]
      | l :: ls => (c :: l) :: ls

/-- The successive results of `Reader.readLine` (bufio `ReadString('\n')`,
suppressing EOF when bytes were read): exactly the nonempty chunks of
`splitAfterNL` (only the final chunk of `splitAfterNL` can be empty). -/
def linesOf (s : List Char) : List (List Char) :=
  (splitAfterNL s).filter (fun l => !l.isEmpty)

/-- `Reader.Read` over a `NewCustomReader` on source `s`: verify the
parameters, then read one value.  Models the Go pair (string, error); on any
error the empty string is returned. -/
def Reader.Read (p : Parameters) (s : List Char) : List Char × Option RErr :=
  if !p.Verify then ([], some .invalidParams)
  else
    match readValueLoop p (linesOf s) false [] with
    | (.ok v, _) => (v, none)
    | (.error e, _) => ([], some e)

/-- The loop of `Reader.ReadAll`, with explicit fuel (the Go loop terminates
because every completed value consumes at least one line; any fuel larger than
the number of lines is sufficient, see `readAllLoopF_eq_splitLoop`).  On a
non-EOF error the accumulated values are discarded (`return nil, err`). -/
def readAllLoopF (p : Parameters) : Nat → List (List Char) → List (List Char) →
    List (List Char) × Option RErr
  | 0, _, values => (values, none)
  | fuel + 1, lines, values =>
    match readValueLoop p lines false [] with
    | (.error .eof, _) => (values, none)
    | (.error e, _) => ([], some e)
    | (.ok v, rest) => readAllLoopF p fuel rest (values ++ [v])

/-- `Reader.ReadAll` over a `NewCustomReader` on source `s`. -/
def Reader.ReadAll (p : Parameters) (s : List Char) : List (List Char) × Option RErr :=
  if !p.Verify then ([], some .invalidParams)
  else readAllLoopF p ((linesOf s).length + 1) (linesOf s) []

/-- The loop of `SplitParams`: a single left-to-right pass over the chunks of
`strings.SplitAfter`, accumulating completed values. -/
def splitLoop (p : Parameters) : List (List Char) → Bool → List Char → List (List Char) →
    List (List Char) × Option RErr
  | [], inRaw, _, values => if inRaw then ([], some .noClosingRaw) else (values, none)
  | line :: rest, inRaw, rs, values =>
    match processLine p inRaw rs line with
    | .skip i r => splitLoop p rest i r values
    | .value v => splitLoop p rest false [] (values ++ [v])

/-- `SplitParams` from the splitter source. -/
def SplitParams (p : Parameters) (s : List Char) : List (List Char) × Option RErr :=
  if !p.Verify then ([], some .invalidParams)
  else splitLoop p (splitAfterNL s) false [] []

/-- The `Writer` configuration from writer.go: parameters, the comment spacing
strings and the CRLF flag. -/
structure Writer where
  p : Parameters
  LeadingCommentSpace : List Char
  TrailingCommentSpace : List Char
  UseCRLF : Bool
  deriving DecidableEq, Repr

/-- `NewWriter` from writer.go: default parameters, leading space `"\t"`,
trailing space `" "`, LF terminators. -/
def NewWriter : Writer :=
  { p := DefaultParameters, LeadingCommentSpace := ['\t'],
    TrailingCommentSpace := [' '], UseCRLF := false }

/-- `firstRune` from writer.go (zero rune for the empty string). -/
def firstRune (s : List Char) : Char :=
  match s with
  | [] => nulChar
  | c :: _ => c

/-- `lastRune` from writer.go (zero rune for the empty string). -/
def lastRune (s : List Char) : Char :=
  match s.getLast? with
  | none => nulChar
  | some c => c

/-- `Writer.valueNeedsEscaping` from writer.go. -/
def Writer.valueNeedsEscaping (w : Writer) (value : List Char) : Bool :=
  if value.isEmpty then false
  else if isSpace (firstRune value) || isSpace (lastRune value) then true
  else if firstRune value == w.p.Raw then true
  else if value.contains '\n' then true
  else false

/-- The unquoted-value replacer of `writeComment`
(Go `strings.NewReplacer("\\#", "\\\\#", "#", "\\#")`, with the default
comment and escape runes hardcoded in the source): at each position the
patterns are tried in order and the scan advances past a replacement. -/
def escCommentEnc : List Char → List Char
  | [] => []
  | a :: rest =>
    match rest with
    | [] => if a == '#' then ['\\', '#'] else [a]
    | b :: rest2 =>
      if a == '\\' && b == '#' then '\\' :: '\\' :: '#' :: escCommentEnc rest2
      else if a == '#' then '\\' :: '#' :: escCommentEnc (b :: rest2)
      else a :: escCommentEnc (b :: rest2)

/-- The quoted-value replacer of `writeComment`
(Go `strings.NewReplacer("\\\"\n", "\\\\\"\n", "\"\n", "\\\"\n")`, with the
default raw and escape runes hardcoded in the source). -/
def rawEnc : List Char → List Char
  | [] => []
  | a :: rest =>
    match rest with
    | [] => [a]
    | b :: rest2 =>
      match rest2 with
      | [] => if a == '"' && b == '\n' then ['\\', '"', '\n'] else a :: rawEnc [b]
      | c :: rest3 =>
        if a == '\\' && b == '"' && c == '\n' then '\\' :: '\\' :: '"' :: '\n' :: rawEnc rest3
        else if a == '"' && b == '\n' then '\\' :: '"' :: '\n' :: rawEnc (c :: rest3)
        else a :: rawEnc (b :: c :: rest3)

/-- The value portion written by `writeComment`: nothing for an empty value,
the comment-escaped text for an unquoted value, or the text wrapped in the
hardcoded quote rune for a quoted value. -/
def writeValueBody (w : Writer) (value : List Char) : List Char :=
  if value.isEmpty then []
  else if !w.valueNeedsEscaping value then escCommentEnc value
  else '"' :: rawEnc value ++ ['"']

/-- The line terminator chosen by the writer. -/
def lineTerm (w : Writer) : List Char :=
  if w.UseCRLF then ['\r', '\n'] else ['\n']

/-- The internal `writeComment` from writer.go: value bytes, then (for a
nonempty comment) the leading space when value bytes were written, the comment
rune, the trailing space and the comment text; two raw runes when both value
and comment are empty; a line terminator whenever any bytes were written. -/
def Writer.writeComment (w : Writer) (value comment : List Char) : List Char :=
  let valBytes := writeValueBody w value
  let commentBytes :=
    if comment.isEmpty then []
    else (if valBytes.isEmpty then [] else w.LeadingCommentSpace) ++
         [w.p.Comment] ++ w.TrailingCommentSpace ++ comment
  let emptyBytes := if value.isEmpty && comment.isEmpty then [w.p.Raw, w.p.Raw] else []
  let body := valBytes ++ commentBytes ++ emptyBytes
  if body.isEmpty then [] else body ++ lineTerm w

/-- `Writer.Write`: the pair (bytes written, error). -/
def Writer.Write (w : Writer) (value : List Char) : List Char × Option RErr :=
  if !w.p.Verify then ([], some .invalidParams) else (w.writeComment value [], none)

/-- `Writer.WriteComment` (public, with parameter verification). -/
def Writer.WriteComment (w : Writer) (value comment : List Char) : List Char × Option RErr :=
  if !w.p.Verify then ([], some .invalidParams) else (w.writeComment value comment, none)

/-- `Writer.WriteAll`: each value through `writeComment` with no comment. -/
def Writer.WriteAll (w : Writer) (values : List (List Char)) : List Char × Option RErr :=
  if !w.p.Verify then ([], some .invalidParams)
  else ((values.map (fun v => w.writeComment v [])).flatten, none)

/-- `Writer.WriteAllWithComments` over (value, comment) pairs. -/
def Writer.WriteAllWithComments (w : Writer) (values : List (List Char × List Char)) :
    List Char × Option RErr :=
  if !w.p.Verify then ([], some .invalidParams)
  else ((values.map (fun vc => w.writeComment vc.1 vc.2)).flatten, none)

/-- Proof-support definition: the value `SplitParams` computes once a single
`readValue` call has finished in a given outcome, starting from accumulated
values `values`.  Used to relate the two loops. -/
def contAfter (p : Parameters) (values : List (List Char)) :
    Except RErr (List Char) × List (List Char) → List (List Char) × Option RErr
  | (.error .eof, _) => (values, none)
  | (.error e, _) => ([], some e)
  | (.ok v, rest) => splitLoop p rest false [] (values ++ [v])

/-- Proof-support definition: whether the line contains an occurrence of the
escape rune immediately followed by the comment rune. -/
def hasEscComment (p : Parameters) : List Char → Bool
  | [] => false
  | a :: rest =>
    match rest with
    | [] => false
    | b :: rest2 => (a == p.Escape && b == p.Comment) || hasEscComment p (b :: rest2)

/-- Proof-support definition: a rune that is not whitespace, not one of the
default delimiters and not the zero rune — ordinary content of a line. -/
def plainChar (c : Char) : Bool :=
  !isSpace c && c != '"' && c != '#' && c != '\\' && c != nulChar

/-- Processing an empty physical line never produces a value and leaves the
scanner state unchanged (both the reader and the splitter skip it). -/
theorem processLine_nil (p : Parameters) (i : Bool) (r : List Char) :
    processLine p i r [] = .skip i r := by
  cases i <;>
    simp [processLine, processLine2, Parameters.trimComment, trimCommentAux]

/-- Empty chunks are no-ops for the splitter loop, so filtering them out (as
the buffered line reader effectively does) does not change the outcome. -/
theorem splitLoop_filter (p : Parameters) :
    ∀ (lines : List (List Char)) (i : Bool) (r : List Char) (vs : List (List Char)),
    splitLoop p (lines.filter (fun l => !l.isEmpty)) i r vs = splitLoop p lines i r vs := by
  intro lines
  induction lines with
  | nil => intro i r vs; simp
  | cons line rest ih =>
    intro i r vs
    by_cases hl : line.isEmpty
    · have hnil : line = [] := by cases line <;> simp_all
      subst hnil
      rw [show (([] : List Char) :: rest).filter (fun l => !l.isEmpty) =
            rest.filter (fun l => !l.isEmpty) by simp]
      rw [show splitLoop p ([] :: rest) i r vs = splitLoop p rest i r vs by
            simp [splitLoop, processLine_nil]]
      exact ih i r vs
    · rw [show (line :: rest).filter (fun l => !l.isEmpty) =
            line :: rest.filter (fun l => !l.isEmpty) by simp [hl]]
      simp only [splitLoop]
      cases hp : processLine p i r line with
      | skip i2 r2 => exact ih i2 r2 vs
      | value v => exact ih false [] (vs ++ [v])

/-- The splitter loop from any state equals: run one `readValue` from that
state, then continue the splitter on the remaining lines.  This is the heart
of the streaming/whole-string equivalence. -/
theorem splitLoop_eq_contAfter (p : Parameters) :
    ∀ (lines : List (List Char)) (i : Bool) (r : List Char) (vs : List (List Char)),
    splitLoop p lines i r vs = contAfter p vs (readValueLoop p lines i r) := by
  intro lines
  induction lines with
  | nil => intro i r vs; cases i <;> simp [splitLoop, readValueLoop, contAfter]
  | cons line rest ih =>
    intro i r vs
    simp only [splitLoop, readValueLoop]
    cases hp : processLine p i r line with
    | skip i2 r2 => exact ih i2 r2 vs
    | value v => simp [contAfter]

/-- A completed value consumes at least one line. -/
theorem readValueLoop_ok_length (p : Parameters) :
    ∀ (lines : List (List Char)) (i : Bool) (r v : List Char) (rest : List (List Char)),
    readValueLoop p lines i r = (.ok v, rest) → rest.length < lines.length := by
  intro lines
  induction lines with
  | nil => intro i r v rest h; cases i <;> simp [readValueLoop] at h
  | cons line tl ih =>
    intro i r v rest h
    simp only [readValueLoop] at h
    cases hp : processLine p i r line with
    | skip i2 r2 =>
      rw [hp] at h
      have := ih i2 r2 v rest h
      simp only [List.length_cons]
      omega
    | value v2 =>
      rw [hp] at h
      simp only [Prod.mk.injEq] at h
      simp [← h.2]

/-- With sufficient fuel (any amount exceeding the number of lines), the
`ReadAll` loop computes exactly what the splitter loop computes. -/
theorem readAllLoopF_eq_splitLoop (p : Parameters) :
    ∀ (fuel : Nat) (lines : List (List Char)) (vs : List (List Char)),
    lines.length < fuel →
    readAllLoopF p fuel lines vs = splitLoop p lines false [] vs := by
  intro fuel
  induction fuel with
  | zero => intro lines vs h; omega
  | succ f ih =>
    intro lines vs h
    rw [splitLoop_eq_contAfter]
    simp only [readAllLoopF]
    cases hr : readValueLoop p lines false [] with
    | mk res rest =>
      cases res with
      | error e => cases e <;> simp [contAfter]
      | ok v =>
        have hlen := readValueLoop_ok_length p lines false [] v rest hr
        simp only [contAfter]
        exact ih rest (vs ++ [v]) (by omega)

/-- The incremental reader and the one-shot splitter agree on every input and
every parameter set. -/
theorem readAll_eq_splitParams (p : Parameters) (s : List Char) :
    Reader.ReadAll p s = SplitParams p s := by
  unfold Reader.ReadAll SplitParams
  by_cases hv : p.Verify
  · simp only [hv, Bool.not_true, Bool.false_eq_true, if_false]
    rw [readAllLoopF_eq_splitLoop p _ _ _ (by omega)]
    simp only [linesOf]
    exact splitLoop_filter p (splitAfterNL s) false [] []
  · simp [hv]

/-- Errors produced by a single `readValue` call are only end-of-input or the
unterminated-raw-literal error (parameter validation happens in the callers). -/
theorem readValueLoop_error_kinds (p : Parameters) :
    ∀ (lines : List (List Char)) (i : Bool) (r : List Char) (e : RErr)
      (rest : List (List Char)),
    readValueLoop p lines i r = (.error e, rest) → e = .eof ∨ e = .noClosingRaw := by
  intro lines
  induction lines with
  | nil =>
    intro i r e rest h
    cases i <;> simp only [readValueLoop, if_true, if_false, Bool.false_eq_true,
      Prod.mk.injEq, Except.error.injEq, reduceIte] at h
    · exact Or.inl h.1.symm
    · exact Or.inr h.1.symm
  | cons line tl ih =>
    intro i r e rest h
    simp only [readValueLoop] at h
    cases hp : processLine p i r line with
    | skip i2 r2 => rw [hp] at h; exact ih i2 r2 e rest h
    | value v => rw [hp] at h; simp at h

/-- On any surfaced error, the `ReadAll` loop discards every value accumulated
so far and the error is the unterminated-raw-literal error. -/
theorem readAllLoopF_error (p : Parameters) :
    ∀ (fuel : Nat) (lines : List (List Char)) (vs : List (List Char)) (e : RErr),
    (readAllLoopF p fuel lines vs).2 = some e →
    (readAllLoopF p fuel lines vs).1 = [] ∧ e = .noClosingRaw := by
  intro fuel
  induction fuel with
  | zero => intro lines vs e h; simp [readAllLoopF] at h
  | succ f ih =>
    intro lines vs e h
    simp only [readAllLoopF] at h ⊢
    cases hr : readValueLoop p lines false [] with
    | mk res rest =>
      rw [hr] at h
      cases res with
      | error e2 =>
        cases e2 with
        | eof => simp at h
        | noClosingRaw =>
          simp only [Option.some.injEq] at h
          exact ⟨rfl, h.symm⟩
        | invalidParams =>
          rcases readValueLoop_error_kinds p lines false [] _ _ hr with h2 | h2 <;>
            exact absurd h2 (by simp)
      | ok v => exact ih rest (vs ++ [v]) e h

/-- With verified parameters, any error from `ReadAll` is the
unterminated-raw-literal error and comes with an empty value list. -/
theorem readAll_error_ncr (p : Parameters) (s : List Char) (hv : p.Verify = true) (e : RErr) :
    (Reader.ReadAll p s).2 = some e → (Reader.ReadAll p s).1 = [] ∧ e = .noClosingRaw := by
  intro h
  unfold Reader.ReadAll at h ⊢
  simp only [hv, Bool.not_true, Bool.false_eq_true, if_false] at h ⊢
  exact readAllLoopF_error p _ _ _ e h

/-- C2: for every input string `s` and every `Parameters p`, the incremental
reader (`NewCustomReader` over `s` followed by `ReadAll`) and the one-shot
splitter `SplitParams s p` return the same value list, or the same error:
the buffered line reader's chunking never changes any decoded value. -/
theorem C2_streaming_split_equiv (p : Parameters) (s : List Char) :
    Reader.ReadAll p s = SplitParams p s :=
  readAll_eq_splitParams p s

/-- C9: whenever `Reader.ReadAll` (or its internal loop, from any accumulated
state) returns an error, it returns no values at all: values decoded earlier
in the same call are discarded rather than returned alongside the error. -/
theorem C9_readAll_atomicity :
    (∀ (p : Parameters) (fuel : Nat) (lines vs : List (List Char)) (e : RErr),
      (readAllLoopF p fuel lines vs).2 = some e → (readAllLoopF p fuel lines vs).1 = []) ∧
    (∀ (p : Parameters) (s : List Char) (e : RErr),
      (Reader.ReadAll p s).2 = some e → (Reader.ReadAll p s).1 = []) := by
  constructor
  · intro p fuel lines vs e h
    exact (readAllLoopF_error p fuel lines vs e h).1
  · intro p s e h
    unfold Reader.ReadAll at h ⊢
    by_cases hv : p.Verify
    · simp only [hv, Bool.not_true, Bool.false_eq_true, if_false] at h ⊢
      exact (readAllLoopF_error p _ _ _ e h).1
    · simp [hv]

/-- Witness for C9: the loop discards an already-accumulated value when the
remaining input has an unterminated raw literal. -/
theorem C9_readAll_atomicity_witness :
    (readAllLoopF DefaultParameters 2 [['"', 'x', '\n']] [['a']]).1 = [] :=
  C9_readAll_atomicity.1 DefaultParameters 2 [['"', 'x', '\n']] [['a']]
    RErr.noClosingRaw (by decide)

/-- C3: with verified parameters, every error surfaced by `Reader.Read` comes
with the empty string (never the partially accumulated raw text), every error
surfaced by `Reader.ReadAll` or `SplitParams` is the `ErrNoClosingRaw` error
and comes with no value list, and exhaustion of the line source while inside
an open raw literal yields `ErrNoClosingRaw` discarding any accumulated text. -/
theorem C3_unterminated_raw_error (p : Parameters) (s : List Char)
    (hv : p.Verify = true) :
    (∀ e, (Reader.Read p s).2 = some e →
      (Reader.Read p s).1 = [] ∧ (e = .eof ∨ e = .noClosingRaw)) ∧
    (∀ e, (Reader.ReadAll p s).2 = some e →
      (Reader.ReadAll p s).1 = [] ∧ e = .noClosingRaw) ∧
    (∀ e, (SplitParams p s).2 = some e →
      (SplitParams p s).1 = [] ∧ e = .noClosingRaw) ∧
    (∀ rs, readValueLoop p [] true rs = (.error .noClosingRaw, [])) := by
  refine ⟨?_, fun e h => readAll_error_ncr p s hv e h, ?_, fun rs => by simp [readValueLoop]⟩
  · intro e h
    unfold Reader.Read at h ⊢
    simp only [hv, Bool.not_true, Bool.false_eq_true, if_false] at h ⊢
    cases hr : readValueLoop p (linesOf s) false [] with
    | mk res rest =>
      rw [hr] at h
      cases res with
      | ok v => simp at h
      | error e2 =>
        simp only [Option.some.injEq] at h
        subst h
        exact ⟨rfl, readValueLoop_error_kinds p (linesOf s) false [] _ _ hr⟩
  · intro e h
    rw [← readAll_eq_splitParams] at h ⊢
    exact readAll_error_ncr p s hv e h

/-- Witness for C3 at the spec's example input, an unterminated raw literal. -/
theorem C3_unterminated_raw_error_witness :
    (Reader.ReadAll DefaultParameters ['"', 'u', 'n', 't', 'e', 'r', 'm', '\n']).1 = [] ∧
    RErr.noClosingRaw = RErr.noClosingRaw :=
  (C3_unterminated_raw_error DefaultParameters ['"', 'u', 'n', 't', 'e', 'r', 'm', '\n']
    (by decide)).2.1 RErr.noClosingRaw (by decide)

/-- C1 (failing-input evaluation): with the default parameters, `WriteAll` on
the single value consisting of a space and a backslash emits the quoted line
whose closing quote is preceded by the escape rune, and decoding that exact
output yields `ErrNoClosingRaw` instead of the original list: the round-trip
contract fails on this value. -/
theorem C1_roundTrip_failing_eval :
    Writer.WriteAll NewWriter [[' ', '\\']] = (['"', ' ', '\\', '"', '\n'], none) ∧
    Reader.ReadAll DefaultParameters ['"', ' ', '\\', '"', '\n'] =
      ([], some RErr.noClosingRaw) ∧
    (([], some RErr.noClosingRaw) : List (List Char) × Option RErr) ≠
      ([[' ', '\\']], none) := by
  exact ⟨by decide, by decide, by decide⟩

/-- C4: every decode and encode entry point rejects parameters failing
`Verify`, returning the invalid-parameters error with no values and no bytes
written. -/
theorem C4_invalid_params_rejected (p : Parameters) (lead trail : List Char) (crlf : Bool)
    (s value comment : List Char) (values : List (List Char))
    (pairs : List (List Char × List Char)) (h : p.Verify = false) :
    Reader.Read p s = ([], some .invalidParams) ∧
    Reader.ReadAll p s = ([], some .invalidParams) ∧
    SplitParams p s = ([], some .invalidParams) ∧
    Writer.Write ⟨p, lead, trail, crlf⟩ value = ([], some .invalidParams) ∧
    Writer.WriteComment ⟨p, lead, trail, crlf⟩ value comment = ([], some .invalidParams) ∧
    Writer.WriteAll ⟨p, lead, trail, crlf⟩ values = ([], some .invalidParams) ∧
    Writer.WriteAllWithComments ⟨p, lead, trail, crlf⟩ pairs = ([], some .invalidParams) := by
  simp [Reader.Read, Reader.ReadAll, SplitParams, Writer.Write, Writer.WriteComment,
        Writer.WriteAll, Writer.WriteAllWithComments, h]

/-- Witness for C4 at a parameter set with two equal delimiters. -/
theorem C4_invalid_params_rejected_witness :
    Reader.Read ⟨'A', 'A', 'C', true⟩ ['x'] = ([], some .invalidParams) ∧
    Reader.ReadAll ⟨'A', 'A', 'C', true⟩ ['x'] = ([], some .invalidParams) ∧
    SplitParams ⟨'A', 'A', 'C', true⟩ ['x'] = ([], some .invalidParams) ∧
    Writer.Write ⟨⟨'A', 'A', 'C', true⟩, ['\t'], [' '], false⟩ ['v'] =
      ([], some .invalidParams) ∧
    Writer.WriteComment ⟨⟨'A', 'A', 'C', true⟩, ['\t'], [' '], false⟩ ['v'] ['c'] =
      ([], some .invalidParams) ∧
    Writer.WriteAll ⟨⟨'A', 'A', 'C', true⟩, ['\t'], [' '], false⟩ [['v']] =
      ([], some .invalidParams) ∧
    Writer.WriteAllWithComments ⟨⟨'A', 'A', 'C', true⟩, ['\t'], [' '], false⟩ [(['v'], ['c'])] =
      ([], some .invalidParams) :=
  C4_invalid_params_rejected ⟨'A', 'A', 'C', true⟩ ['\t'] [' '] false ['x'] ['v'] ['c']
    [['v']] [(['v'], ['c'])] (by decide)

/-- A line with no adjacent escape-comment pair is left unchanged by the
reader's unescaping step; in particular an escape rune before a raw rune is
kept verbatim. -/
theorem replaceAllEC_of_no_pair (p : Parameters) :
    ∀ l : List Char, hasEscComment p l = false → replaceAllEC p l = l := by
  intro l
  induction l with
  | nil => intro h; rfl
  | cons a tl ih =>
    intro h
    cases tl with
    | nil => rfl
    | cons b tl2 =>
      simp only [hasEscComment, Bool.or_eq_false_iff] at h
      simp only [replaceAllEC, h.1, Bool.false_eq_true, if_false]
      rw [ih h.2]

/-- C5: scanning treats a comment or raw rune as escaped exactly when the
single immediately preceding rune is the escape rune; in particular after two
consecutive escape runes a comment rune is still escaped (the line is not
truncated there), while after any non-escape rune the comment rune starts a
comment. -/
theorem C5_single_prior_escape (p : Parameters) (c prev x : Char) (rest : List Char)
    (hce : p.Comment ≠ p.Escape) (hx1 : x ≠ p.Escape) (hx2 : x ≠ p.Comment) :
    (p.isComment c prev = ((c == p.Comment) && !(prev == p.Escape))) ∧
    (p.isRaw c prev = ((c == p.Raw) && !(prev == p.Escape))) ∧
    (p.trimComment (p.Escape :: p.Escape :: p.Comment :: rest) false =
      p.Escape :: p.Escape :: p.Comment :: trimCommentAux p p.Comment false rest) ∧
    (p.trimComment (x :: p.Comment :: rest) false = [x]) := by
  refine ⟨rfl, rfl, ?_, ?_⟩
  · have h1 : (p.Escape == p.Comment) = false := by
      simp only [beq_eq_false_iff_ne, ne_eq]
      exact fun hc => hce hc.symm
    simp [Parameters.trimComment, trimCommentAux, Parameters.isComment, Parameters.isRaw,
      isChar, h1]
  · have h1 : (x == p.Comment) = false := by simpa using hx2
    have h2 : (x == p.Escape) = false := by simpa using hx1
    simp [Parameters.trimComment, trimCommentAux, Parameters.isComment, Parameters.isRaw,
      isChar, h1, h2]

/-- Witness for C5: with default delimiters, a comment rune after a plain
character truncates the line there. -/
theorem C5_single_prior_escape_witness :
    DefaultParameters.trimComment ['a', '#'] false = ['a'] :=
  (C5_single_prior_escape DefaultParameters '#' '\\' 'a' [] (by decide) (by decide)
    (by decide)).2.2.2

/-- C10: in a line decoded outside a raw literal, only escape-before-comment
pairs are collapsed; a line with no such pair (for instance one containing the
escape rune before the raw rune) is returned verbatim, and with default
delimiters the single line `a\"` decodes to the value `a\"`, keeping the
backslash. -/
theorem C10_asymmetric_unescape (p : Parameters) (l rest : List Char)
    (h : hasEscComment p l = false) :
    replaceAllEC p l = l ∧
    replaceAllEC p (p.Escape :: p.Comment :: rest) = p.Comment :: replaceAllEC p rest ∧
    Reader.Read DefaultParameters ['a', '\\', '"'] = (['a', '\\', '"'], none) := by
  refine ⟨replaceAllEC_of_no_pair p l h, ?_, by decide⟩
  cases rest with
  | nil => simp [replaceAllEC]
  | cons b tl => simp [replaceAllEC]

/-- Witness for C10: the escape-before-raw pair is kept verbatim. -/
theorem C10_asymmetric_unescape_witness :
    replaceAllEC DefaultParameters ['a', '\\', '"'] = ['a', '\\', '"'] :=
  (C10_asymmetric_unescape DefaultParameters ['a', '\\', '"'] [] (by decide)).1

/-- The comment-escaping encoder maps a nonempty input to an output whose
first rune is the input's first rune, except that a leading comment rune is
preceded by the escape rune. -/
theorem escCommentEnc_head (a : Char) (tl : List Char) :
    ∃ t, escCommentEnc (a :: tl) = (if a == '#' then '\\' else a) :: t := by
  cases tl with
  | nil =>
    by_cases hh : (a == '#') = true
    · exact ⟨['#'], by simp [escCommentEnc, hh]⟩
    · exact ⟨[], by simp [escCommentEnc, hh]⟩
  | cons b tl2 =>
    by_cases h1 : (a == '\\' && b == '#') = true
    · have hab := (Bool.and_eq_true _ _).mp h1
      have ha : a = '\\' := by simpa using hab.1
      have hb : b = '#' := by simpa using hab.2
      subst ha; subst hb
      exact ⟨'\\' :: '#' :: escCommentEnc tl2, by simp [escCommentEnc]⟩
    · by_cases h2 : (a == '#') = true
      · refine ⟨'#' :: escCommentEnc (b :: tl2), ?_⟩
        simp [escCommentEnc, h1, h2]
      · exact ⟨escCommentEnc (b :: tl2), by simp [escCommentEnc, h1, h2]⟩

/-- The quoting test of the writer, spelled as the disjunction of its four
conditions (for a nonempty value). -/
theorem valueNeedsEscaping_eq (w : Writer) (value : List Char) (h : value ≠ []) :
    w.valueNeedsEscaping value =
      (isSpace (firstRune value) || isSpace (lastRune value) ||
       (firstRune value == w.p.Raw) || value.contains '\n') := by
  have hne : value.isEmpty = false := by cases value <;> simp_all
  simp only [Writer.valueNeedsEscaping, hne, Bool.false_eq_true, if_false]
  cases hA : (isSpace (firstRune value) || isSpace (lastRune value)) <;>
    cases hB : (firstRune value == w.p.Raw) <;>
    cases hC : value.contains '\n' <;> simp [hA, hB, hC]

/-- C7: for every nonempty value, the quoting test holds exactly when the
first or last rune is whitespace, the first rune is the raw delimiter, or the
value contains a newline; and for the default writer the emitted value bytes
are wrapped in the raw delimiter exactly under that condition, being the
comment-escaped plain text otherwise. -/
theorem C7_quoting_condition (w : Writer) (value : List Char) (h : value ≠ []) :
    (w.valueNeedsEscaping value =
      (isSpace (firstRune value) || isSpace (lastRune value) ||
       (firstRune value == w.p.Raw) || value.contains '\n')) ∧
    ((∃ mid, writeValueBody NewWriter value = NewWriter.p.Raw :: mid ++ [NewWriter.p.Raw]) ↔
      NewWriter.valueNeedsEscaping value = true) ∧
    (NewWriter.valueNeedsEscaping value = false →
      writeValueBody NewWriter value = escCommentEnc value) := by
  have hne : value.isEmpty = false := by cases value <;> simp_all
  refine ⟨valueNeedsEscaping_eq w value h, ?_, ?_⟩
  · constructor
    · rintro ⟨mid, hm⟩
      by_contra hq
      have hq2 : NewWriter.valueNeedsEscaping value = false := by
        cases hv : NewWriter.valueNeedsEscaping value
        · rfl
        · exact absurd hv hq
      rw [writeValueBody, hne] at hm
      simp only [Bool.false_eq_true, if_false, hq2, Bool.not_false, if_true] at hm
      obtain ⟨a, tl, rfl⟩ : ∃ a tl, value = a :: tl := by
        cases value with
        | nil => exact absurd rfl h
        | cons a tl => exact ⟨a, tl, rfl⟩
      obtain ⟨t, ht⟩ := escCommentEnc_head a tl
      rw [ht] at hm
      have hhead : (if a == '#' then '\\' else a) = NewWriter.p.Raw := by
        have := congrArg (fun l => l.head?) hm
        simpa using this
      have hraw : (firstRune (a :: tl) == NewWriter.p.Raw) = false := by
        have := valueNeedsEscaping_eq NewWriter (a :: tl) h
        rw [hq2] at this
        have hors := this.symm
        simp only [Bool.or_eq_false_iff] at hors
        exact hors.1.2
      by_cases hsharp : (a == '#') = true
      · rw [if_pos hsharp] at hhead
        exact absurd hhead (by decide)
      · rw [if_neg (by simpa using hsharp)] at hhead
        rw [show firstRune (a :: tl) = a from rfl, hhead] at hraw
        simp at hraw
    · intro hq
      refine ⟨rawEnc value, ?_⟩
      have hR : NewWriter.p.Raw = '"' := rfl
      rw [writeValueBody, hne, hR]
      simp [hq]
  · intro hq
    rw [writeValueBody, hne]
    simp [hq]

/-- Witness for C7: a value with a leading space is emitted quoted. -/
theorem C7_quoting_condition_witness :
    ∃ mid, writeValueBody NewWriter [' ', 'a'] = NewWriter.p.Raw :: mid ++ [NewWriter.p.Raw] :=
  (C7_quoting_condition NewWriter [' ', 'a'] (by decide)).2.1.mpr (by decide)

/-- The comment-escaping encoder never maps a nonempty value to the empty
output. -/
theorem escCommentEnc_ne_nil (a : Char) (tl : List Char) : escCommentEnc (a :: tl) ≠ [] := by
  obtain ⟨t, ht⟩ := escCommentEnc_head a tl
  simp [ht]

/-- The value bytes of a nonempty value are nonempty. -/
theorem writeValueBody_ne_nil (w : Writer) (value : List Char) (h : value ≠ []) :
    writeValueBody w value ≠ [] := by
  have hne : value.isEmpty = false := by cases value <;> simp_all
  rw [writeValueBody, hne]
  obtain ⟨a, tl, rfl⟩ : ∃ a tl, value = a :: tl := by
    cases value with
    | nil => exact absurd rfl h
    | cons a tl => exact ⟨a, tl, rfl⟩
  by_cases hq : (!w.valueNeedsEscaping (a :: tl)) = true
  · simp only [Bool.false_eq_true, if_false, hq, if_true]
    exact escCommentEnc_ne_nil a tl
  · simp only [Bool.false_eq_true, if_false, hq]
    simp

/-- C8 counterexample: `WriteComment` with an empty value and the comment `c`
writes the line `# c\n` with no leading comment space at all, so the line does
not end with the configured leading space followed by the comment marker. -/
theorem C8_comment_leading_space_cex :
    Writer.WriteComment NewWriter [] ['c'] = (['#', ' ', 'c', '\n'], none) ∧
    '\t' ∉ (['#', ' ', 'c', '\n'] : List Char) := by
  exact ⟨by decide, by decide⟩

/-- C8 (amended): for every nonempty value and nonempty comment, the written
line is the value bytes, the leading comment space, the comment rune, the
trailing comment space, the comment text verbatim and the line terminator;
for an empty value the leading comment space is omitted. -/
theorem C8_comment_format_amended (w : Writer) (value comment : List Char)
    (hv : value ≠ []) (hc : comment ≠ []) :
    w.writeComment value comment =
      writeValueBody w value ++ w.LeadingCommentSpace ++ [w.p.Comment] ++
        w.TrailingCommentSpace ++ comment ++ lineTerm w ∧
    w.writeComment [] comment =
      [w.p.Comment] ++ w.TrailingCommentSpace ++ comment ++ lineTerm w := by
  have hc2 : comment.isEmpty = false := by cases comment <;> simp_all
  have hv2 : value.isEmpty = false := by cases value <;> simp_all
  have hb : writeValueBody w value ≠ [] := writeValueBody_ne_nil w value hv
  constructor
  · rw [Writer.writeComment]
    simp only [hc2, hv2, Bool.false_eq_true, if_false, Bool.and_eq_true, and_false,
      false_and]
    have hbe : (writeValueBody w value).isEmpty = false := by
      cases hx : writeValueBody w value with
      | nil => exact absurd hx hb
      | cons a tl => rfl
    simp [hbe, List.append_assoc]
  · rw [Writer.writeComment]
    have hnil : writeValueBody w [] = [] := by simp [writeValueBody]
    simp [hnil, hc2, List.append_assoc]

/-- Witness for C8 (amended) at a one-character value and comment. -/
theorem C8_comment_format_amended_witness :
    NewWriter.writeComment ['a'] ['c'] =
      writeValueBody NewWriter ['a'] ++ NewWriter.LeadingCommentSpace ++
        [NewWriter.p.Comment] ++ NewWriter.TrailingCommentSpace ++ ['c'] ++
        lineTerm NewWriter ∧
    NewWriter.writeComment [] ['c'] =
      [NewWriter.p.Comment] ++ NewWriter.TrailingCommentSpace ++ ['c'] ++ lineTerm NewWriter :=
  C8_comment_format_amended NewWriter ['a'] ['c'] (by decide) (by decide)

/-- Unpacking of the `plainChar` conjunction. -/
theorem plainChar_spec (c : Char) (h : plainChar c = true) :
    isSpace c = false ∧ (c == '"') = false ∧ (c == '#') = false ∧
    (c == '\\') = false ∧ (c == nulChar) = false := by
  simp only [plainChar, Bool.and_eq_true, Bool.not_eq_true', bne_iff_ne, ne_eq] at h
  obtain ⟨⟨⟨⟨h1, h2⟩, h3⟩, h4⟩, h5⟩ := h
  exact ⟨h1, by simpa using h2, by simpa using h3, by simpa using h4, by simpa using h5⟩

/-- A whitespace rune is never one of the default delimiters. -/
theorem isSpace_not_delimiter (c : Char) (h : isSpace c = true) :
    (c == '#') = false ∧ (c == '"') = false ∧ (c == '\\') = false := by
  refine ⟨?_, ?_, ?_⟩ <;>
  · simp only [beq_eq_false_iff_ne, ne_eq]
    intro hh
    rw [hh] at h
    exact absurd h (by decide)

/-- A rune that is not whitespace is not a newline. -/
theorem not_space_ne_newline (c : Char) (h : isSpace c = false) :
    (c == '\n') = false := by
  simp only [beq_eq_false_iff_ne, ne_eq]
  intro hh
  rw [hh] at h
  exact absurd h (by decide)

/-- `trimComment` is the identity on a line that contains no comment rune. -/
theorem trimCommentAux_no_comment (p : Parameters) :
    ∀ (l : List Char) (prev : Char) (inRaw : Bool),
    (∀ c ∈ l, (c == p.Comment) = false) → trimCommentAux p prev inRaw l = l := by
  intro l
  induction l with
  | nil => intro prev i _; rfl
  | cons c rest ih =>
    intro prev i h
    have hc : (c == p.Comment) = false := h c (by simp)
    simp only [trimCommentAux, Parameters.isComment, isChar, hc, Bool.false_and,
      Bool.false_eq_true, if_false]
    rw [ih _ _ (fun d hd => h d (by simp [hd]))]

/-- `dropWhile` over a prefix whose elements all satisfy the predicate. -/
theorem dropWhile_append_all (f : Char → Bool) :
    ∀ (l1 l2 : List Char), (∀ c ∈ l1, f c = true) →
    (l1 ++ l2).dropWhile f = l2.dropWhile f := by
  intro l1
  induction l1 with
  | nil => intro l2 _; rfl
  | cons c rest ih =>
    intro l2 h
    have hc : f c = true := h c (by simp)
    simp only [List.cons_append, List.dropWhile_cons, hc, if_true]
    exact ih l2 (fun d hd => h d (by simp [hd]))

/-- `dropWhile` is the identity when every element fails the predicate. -/
theorem dropWhile_all_neg (f : Char → Bool) (l : List Char)
    (h : ∀ c ∈ l, f c = false) : l.dropWhile f = l := by
  cases l with
  | nil => rfl
  | cons c rest => simp [List.dropWhile_cons, h c (by simp)]

/-- Trailing whitespace after all-nonspace content is exactly what trimming
removes. -/
theorem trimRight_append_ws (a ws : List Char)
    (ha : ∀ c ∈ a, isSpace c = false) (hws : ∀ c ∈ ws, isSpace c = true) :
    trimRight (a ++ ws) = a := by
  rw [trimRight, List.reverse_append]
  rw [dropWhile_append_all isSpace ws.reverse a.reverse
    (fun c hc => hws c (List.mem_reverse.mp hc))]
  rw [dropWhile_all_neg isSpace a.reverse (fun c hc => ha c (List.mem_reverse.mp hc))]
  exact List.reverse_reverse a

/-- A line without the escape rune has no escape-comment pair. -/
theorem hasEscComment_no_escape (p : Parameters) :
    ∀ l : List Char, (∀ c ∈ l, (c == p.Escape) = false) → hasEscComment p l = false := by
  intro l
  induction l with
  | nil => intro _; rfl
  | cons a tl ih =>
    intro h
    cases tl with
    | nil => rfl
    | cons b tl2 =>
      simp only [hasEscComment, Bool.or_eq_false_iff]
      exact ⟨by simp [h a (by simp)], ih (fun d hd => h d (by simp [hd]))⟩

/-- The backward scan skips over trailing whitespace while nothing has been
recorded yet. -/
theorem backScanAux_space_skip :
    ∀ (w t : List Char) (p1 p2 : Char) (j k : Nat), (∀ c ∈ w, isSpace c = true) →
    backScanAux (w ++ t) nulChar p1 p2 j k = backScanAux t nulChar p1 p2 j k := by
  intro w
  induction w with
  | nil => intro t p1 p2 j k _; rfl
  | cons c rest ih =>
    intro t p1 p2 j k h
    have hc : isSpace c = true := h c (by simp)
    simp only [List.cons_append, backScanAux, hc, Bool.not_true, Bool.false_and,
      Bool.false_eq_true, if_false, bne_self_eq_false]
    exact ih t p1 p2 j k (fun d hd => h d (by simp [hd]))

/-- Once a non-null last rune is recorded, the backward scan never changes it. -/
theorem backScanAux_last_fixed :
    ∀ (t : List Char) (c p1 p2 : Char) (j k : Nat), (c == nulChar) = false →
    (backScanAux t c p1 p2 j k).last = c := by
  intro t
  induction t with
  | nil => intro c p1 p2 j k _; rfl
  | cons d rest ih =>
    intro c p1 p2 j k h
    simp only [backScanAux, h, Bool.and_false, Bool.false_eq_true, if_false]
    by_cases h2 : (c != nulChar && p1 == nulChar) = true
    · simp only [h2, if_true]
      exact ih c d p2 j rest.length h
    · simp only [h2, Bool.false_eq_true, if_false]
      by_cases h3 : (c != nulChar && p1 != nulChar && p2 == nulChar) = true
      · simp only [h3, if_true]
      · simp only [h3, Bool.false_eq_true, if_false]
        exact ih c p1 p2 j k h

/-- Once last and the rune before it are recorded (and the third slot is still
empty), the backward scan stops, keeping last, prev1 and the index j. -/
theorem backScanAux_stop (t : List Char) (c p1 : Char) (j k : Nat)
    (hc : (c == nulChar) = false) (hp : (p1 == nulChar) = false) :
    (backScanAux t c p1 nulChar j k).last = c ∧
    (backScanAux t c p1 nulChar j k).prev1 = p1 ∧
    (backScanAux t c p1 nulChar j k).j = j := by
  have hc2 : (c != nulChar) = true := by
    simp only [bne_iff_ne, ne_eq]
    exact beq_eq_false_iff_ne.mp hc
  have hp2 : (p1 != nulChar) = true := by
    simp only [bne_iff_ne, ne_eq]
    exact beq_eq_false_iff_ne.mp hp
  cases t with
  | nil => exact ⟨rfl, rfl, rfl⟩
  | cons d rest =>
    simp only [backScanAux, hc, hp, hc2, hp2, Bool.and_false, Bool.true_and,
      Bool.false_eq_true, if_false, beq_self_eq_true, Bool.and_true, if_true]
    exact ⟨trivial, trivial, trivial⟩

/-- The comment delimiter of the default parameters. -/
theorem default_Comment : DefaultParameters.Comment = '#' := rfl

/-- The raw delimiter of the default parameters. -/
theorem default_Raw : DefaultParameters.Raw = '"' := rfl

/-- The escape delimiter of the default parameters. -/
theorem default_Escape : DefaultParameters.Escape = '\\' := rfl

/-- The trim flag of the default parameters. -/
theorem default_Trim : DefaultParameters.TrimLeadingSpace = true := rfl

/-- Inside an open raw literal, a line of plain content followed by trailing
whitespace (for instance the terminator `\r\n`) is appended to the
accumulator verbatim — carriage return and newline included — and raw mode
continues. -/
theorem processLine_raw_no_close (rs a ws : List Char) (ha : a ≠ [])
    (hpa : ∀ c ∈ a, plainChar c = true) (hws : ∀ c ∈ ws, isSpace c = true) :
    processLine DefaultParameters true rs (a ++ ws) = .skip true (rs ++ (a ++ ws)) := by
  have hcom : ∀ c ∈ a ++ ws, (c == DefaultParameters.Comment) = false := by
    intro c hc
    rw [default_Comment]
    rcases List.mem_append.mp hc with h | h
    · exact (plainChar_spec c (hpa c h)).2.2.1
    · exact (isSpace_not_delimiter c (hws c h)).1
  have htrim : trimCommentAux DefaultParameters nulChar true (a ++ ws) = a ++ ws :=
    trimCommentAux_no_comment DefaultParameters (a ++ ws) nulChar true hcom
  obtain ⟨a0, atl, rfl⟩ : ∃ a0 atl, a = a0 :: atl := by
    cases a with
    | nil => exact absurd rfl ha
    | cons a0 atl => exact ⟨a0, atl, rfl⟩
  obtain ⟨al, t, hrev⟩ : ∃ al t, (a0 :: atl).reverse = al :: t := by
    cases hx : (a0 :: atl).reverse with
    | nil => exact absurd hx (by simp)
    | cons al t => exact ⟨al, t, rfl⟩
  have hal_mem : al ∈ a0 :: atl := by
    have hm : al ∈ (a0 :: atl).reverse := by rw [hrev]; simp
    exact List.mem_reverse.mp hm
  have hal := plainChar_spec al (hpa al hal_mem)
  have hbs : (backScan ((a0 :: atl) ++ ws)).last = al := by
    rw [backScan, List.reverse_append]
    rw [backScanAux_space_skip ws.reverse ((a0 :: atl).reverse) nulChar nulChar 0 0
      (fun c hc => hws c (List.mem_reverse.mp hc))]
    rw [hrev]
    have hns : (!isSpace al && (nulChar == nulChar)) = true := by simp [hal.1]
    simp only [backScanAux, hns, if_true]
    exact backScanAux_last_fixed t al nulChar nulChar t.length 0 hal.2.2.2.2
  simp only [processLine, if_true]
  simp only [processLine2, Parameters.trimComment, htrim]
  have hne : ((a0 :: atl) ++ ws).isEmpty = false := by simp
  simp only [hne, Bool.false_eq_true, if_false, if_true]
  simp only [Parameters.isRaw, isChar, hbs, default_Raw, default_Escape, hal.2.1,
    Bool.false_and, Bool.false_eq_true, if_false]

/-- Inside an open raw literal, a line of plain content followed by the
closing quote and a newline closes the literal: the produced value is the
accumulator plus that content, quote and newline excluded. -/
theorem processLine_raw_close (rs b : List Char) (hb : b ≠ [])
    (hpb : ∀ c ∈ b, plainChar c = true) :
    processLine DefaultParameters true rs (b ++ '"' :: '\n' :: []) = .value (rs ++ b) := by
  have hcom : ∀ c ∈ b ++ '"' :: '\n' :: [], (c == DefaultParameters.Comment) = false := by
    intro c hc
    rw [default_Comment]
    rcases List.mem_append.mp hc with h | h
    · exact (plainChar_spec c (hpb c h)).2.2.1
    · rcases List.mem_cons.mp h with h2 | h2
      · subst h2; decide
      · have h3 : c = '\n' := by simpa using h2
        subst h3; decide
  have htrim : trimCommentAux DefaultParameters nulChar true (b ++ '"' :: '\n' :: []) =
      b ++ '"' :: '\n' :: [] :=
    trimCommentAux_no_comment DefaultParameters _ nulChar true hcom
  obtain ⟨bl, bt, hrev⟩ : ∃ bl bt, b.reverse = bl :: bt := by
    cases hx : b.reverse with
    | nil =>
      exact absurd (by simpa using congrArg List.reverse hx) hb
    | cons bl bt => exact ⟨bl, bt, rfl⟩
  have hbl_mem : bl ∈ b := by
    have hm : bl ∈ b.reverse := by rw [hrev]; simp
    exact List.mem_reverse.mp hm
  have hbl := plainChar_spec bl (hpb bl hbl_mem)
  have hfields : (backScan (b ++ '"' :: '\n' :: [])).last = '"' ∧
      (backScan (b ++ '"' :: '\n' :: [])).prev1 = bl ∧
      (backScan (b ++ '"' :: '\n' :: [])).j = b.length := by
    rw [backScan, List.reverse_append]
    rw [show ('"' :: '\n' :: ([] : List Char)).reverse ++ b.reverse =
          ['\n'] ++ ('"' :: b.reverse) by simp]
    rw [backScanAux_space_skip ['\n'] ('"' :: b.reverse) nulChar nulChar 0 0 (by decide)]
    have hq : (!isSpace '"' && (nulChar == nulChar)) = true := by decide
    simp only [backScanAux, hq, if_true]
    rw [hrev]
    have h1 : (('"' : Char) == nulChar) = false := by decide
    have h2 : (('"' : Char) != nulChar && (nulChar == nulChar)) = true := by decide
    simp only [backScanAux, h1, h2, Bool.and_false, Bool.false_eq_true, if_false, if_true]
    obtain ⟨hl, hp1, hj⟩ :=
      backScanAux_stop bt '"' bl (bl :: bt).length bt.length (by decide) hbl.2.2.2.2
    refine ⟨hl, hp1, ?_⟩
    rw [hj, ← hrev]
    exact List.length_reverse b
  obtain ⟨hl, hp1, hj⟩ := hfields
  simp only [processLine, if_true]
  simp only [processLine2, Parameters.trimComment, htrim]
  have hne : (b ++ '"' :: '\n' :: []).isEmpty = false := by cases b <;> simp
  simp only [hne, Bool.false_eq_true, if_false, if_true]
  simp only [Parameters.isRaw, isChar, hl, hp1, hj, default_Raw, default_Escape,
    beq_self_eq_true, Bool.true_and, hbl.2.2.2.1, Bool.not_false, if_true]
  rw [show (b ++ '"' :: '\n' :: []).take b.length = b from List.take_left b _]

/-- Outside a raw literal, a line of plain content followed by trailing
whitespace (a bare `\r`, a `\n` or a full `\r\n`) decodes to exactly the
plain content: the trailing whitespace is trimmed, whichever form it takes. -/
theorem processLine_plain (a ws : List Char) (ha : a ≠ [])
    (hpa : ∀ c ∈ a, plainChar c = true) (hws : ∀ c ∈ ws, isSpace c = true) :
    processLine DefaultParameters false [] (a ++ ws) = .value a := by
  have hcom : ∀ c ∈ a ++ ws, (c == DefaultParameters.Comment) = false := by
    intro c hc
    rw [default_Comment]
    rcases List.mem_append.mp hc with h | h
    · exact (plainChar_spec c (hpa c h)).2.2.1
    · exact (isSpace_not_delimiter c (hws c h)).1
  have htrim : trimCommentAux DefaultParameters nulChar false (a ++ ws) = a ++ ws :=
    trimCommentAux_no_comment DefaultParameters (a ++ ws) nulChar false hcom
  obtain ⟨a0, atl, rfl⟩ : ∃ a0 atl, a = a0 :: atl := by
    cases a with
    | nil => exact absurd rfl ha
    | cons a0 atl => exact ⟨a0, atl, rfl⟩
  have h0 := plainChar_spec a0 (hpa a0 (by simp))
  have htrimR : trimRight ((a0 :: atl) ++ ws) = a0 :: atl :=
    trimRight_append_ws (a0 :: atl) ws
      (fun c hc => (plainChar_spec c (hpa c hc)).1) hws
  have hrep : replaceAllEC DefaultParameters (a0 :: atl) = a0 :: atl := by
    refine replaceAllEC_of_no_pair DefaultParameters (a0 :: atl)
      (hasEscComment_no_escape DefaultParameters (a0 :: atl) ?_)
    intro c hc
    rw [default_Escape]
    exact (plainChar_spec c (hpa c hc)).2.2.2.1
  rw [List.cons_append] at htrim htrimR
  have hdrop : List.dropWhile isSpace (a0 :: (atl ++ ws)) = a0 :: (atl ++ ws) := by
    simp [List.dropWhile_cons, h0.1]
  simp only [processLine, Bool.false_eq_true, if_false, default_Trim, if_true,
    List.cons_append, hdrop]
  simp only [default_Raw, h0.2.1, Bool.false_eq_true, if_false]
  simp only [processLine2, Parameters.trimComment, htrim, List.isEmpty_cons,
    Bool.false_eq_true, if_false, htrimR, hrep]

/-- `strings.SplitAfter` on a string without newlines is that one chunk. -/
theorem splitAfterNL_no_newline :
    ∀ l : List Char, (∀ c ∈ l, (c == '\n') = false) → splitAfterNL l = [l] := by
  intro l
  induction l with
  | nil => intro _; rfl
  | cons c rest ih =>
    intro h
    have hc : (c == '\n') = false := h c (by simp)
    simp only [splitAfterNL, hc, Bool.false_eq_true, if_false]
    rw [ih (fun d hd => h d (by simp [hd]))]

/-- `strings.SplitAfter` peels off the first newline-terminated chunk. -/
theorem splitAfterNL_append :
    ∀ (x y : List Char), (∀ c ∈ x, (c == '\n') = false) →
    splitAfterNL (x ++ '\n' :: y) = (x ++ ['\n']) :: splitAfterNL y := by
  intro x
  induction x with
  | nil => intro y _; simp [splitAfterNL]
  | cons c rest ih =>
    intro y h
    have hc : (c == '\n') = false := h c (by simp)
    simp only [List.cons_append, splitAfterNL, hc, Bool.false_eq_true, if_false,
      List.append_eq]
    rw [ih y (fun d hd => h d (by simp [hd]))]

/-- C6 counterexample: decoding the raw literal `"a<CR><LF>b"` yields the
value `a<CR><LF>b` — the CRLF join is kept, not mapped to a bare LF — and a
bare trailing carriage return in a plain line is trimmed as whitespace, not
kept as ordinary content. -/
theorem C6_crlf_normalization_cex :
    Reader.ReadAll DefaultParameters ['"', 'a', '\r', '\n', 'b', '"', '\n'] =
      ([['a', '\r', '\n', 'b']], none) ∧
    (['a', '\r', '\n', 'b'] : List Char) ≠ ['a', '\n', 'b'] ∧
    Reader.ReadAll DefaultParameters ['x', '\r'] = ([['x']], none) ∧
    (['x'] : List Char) ≠ ['x', '\r'] := by
  exact ⟨by decide, by decide, by decide, by decide⟩

/-- C6 (amended): no CRLF normalization is performed.  A raw literal spanning
a CRLF-terminated physical line keeps `\r\n` verbatim at the join; a plain
line drops its trailing whitespace entirely, so CRLF-terminated,
LF-terminated and bare-CR-terminated plain lines of the same content decode
to the same value, the carriage return being trimmed rather than kept. -/
theorem C6_crlf_amended (a b : List Char) (ha : a ≠ []) (hb : b ≠ [])
    (hpa : ∀ c ∈ a, plainChar c = true) (hpb : ∀ c ∈ b, plainChar c = true) :
    Reader.ReadAll DefaultParameters
        ('"' :: (a ++ '\r' :: '\n' :: (b ++ '"' :: '\n' :: []))) =
      ([a ++ '\r' :: '\n' :: b], none) ∧
    Reader.ReadAll DefaultParameters (a ++ '\r' :: '\n' :: []) = ([a], none) ∧
    Reader.ReadAll DefaultParameters (a ++ '\r' :: []) = ([a], none) ∧
    Reader.ReadAll DefaultParameters (a ++ '\n' :: []) = ([a], none) := by
  have hNoNlA : ∀ c ∈ a, (c == '\n') = false :=
    fun c hc => not_space_ne_newline c (plainChar_spec c (hpa c hc)).1
  have hNoNlB : ∀ c ∈ b, (c == '\n') = false :=
    fun c hc => not_space_ne_newline c (plainChar_spec c (hpb c hc)).1
  have hV : (!DefaultParameters.Verify) = false := by decide
  have hx3 : ∀ c ∈ a ++ ['\r'], (c == '\n') = false := by
    intro c hc
    rcases List.mem_append.mp hc with h | h
    · exact hNoNlA c h
    · have h2 : c = '\r' := by simpa using h
      subst h2; decide
  refine ⟨?_, ?_, ?_, ?_⟩
  · have hx1 : ∀ c ∈ '"' :: (a ++ ['\r']), (c == '\n') = false := by
      intro c hc
      rcases List.mem_cons.mp hc with h | h
      · subst h; decide
      · exact hx3 c h
    have hx2 : ∀ c ∈ b ++ ['"'], (c == '\n') = false := by
      intro c hc
      rcases List.mem_append.mp hc with h | h
      · exact hNoNlB c h
      · have h2 : c = '"' := by simpa using h
        subst h2; decide
    rw [readAll_eq_splitParams]
    simp only [SplitParams, hV, Bool.false_eq_true, if_false]
    rw [show ('"' :: (a ++ '\r' :: '\n' :: (b ++ '"' :: '\n' :: []))) =
          ('"' :: (a ++ ['\r'])) ++ '\n' :: ((b ++ ['"']) ++ '\n' :: []) by simp]
    rw [splitAfterNL_append ('"' :: (a ++ ['\r'])) _ hx1]
    rw [splitAfterNL_append (b ++ ['"']) [] hx2]
    have hl1 : processLine DefaultParameters false [] (('"' :: (a ++ ['\r'])) ++ ['\n']) =
        .skip true (a ++ '\r' :: '\n' :: []) := by
      rw [show (('"' :: (a ++ ['\r'])) ++ ['\n']) = '"' :: (a ++ ('\r' :: '\n' :: []))
            by simp]
      have hqs : isSpace '"' = false := by decide
      simp only [processLine, Bool.false_eq_true, if_false, default_Trim, if_true,
        List.dropWhile_cons, hqs]
      simp only [default_Raw, beq_self_eq_true, if_true]
      have hstep := processLine_raw_no_close [] a ('\r' :: '\n' :: []) ha hpa (by decide)
      simpa [processLine] using hstep
    have hl2 : processLine DefaultParameters true (a ++ '\r' :: '\n' :: [])
          ((b ++ ['"']) ++ ['\n']) = .value ((a ++ '\r' :: '\n' :: []) ++ b) := by
      rw [show ((b ++ ['"']) ++ ['\n']) = b ++ '"' :: '\n' :: [] by simp]
      exact processLine_raw_close (a ++ '\r' :: '\n' :: []) b hb hpb
    simp only [splitLoop, hl1, hl2, processLine_nil, splitAfterNL,
      Bool.false_eq_true, if_false]
    simp
  · rw [readAll_eq_splitParams]
    simp only [SplitParams, hV, Bool.false_eq_true, if_false]
    rw [show (a ++ '\r' :: '\n' :: []) = (a ++ ['\r']) ++ '\n' :: [] by simp]
    rw [splitAfterNL_append (a ++ ['\r']) [] hx3]
    have hp : processLine DefaultParameters false [] ((a ++ ['\r']) ++ ['\n']) =
        .value a := by
      rw [show ((a ++ ['\r']) ++ ['\n']) = a ++ '\r' :: '\n' :: [] by simp]
      exact processLine_plain a ('\r' :: '\n' :: []) ha hpa (by decide)
    simp only [splitLoop, hp, processLine_nil, splitAfterNL, Bool.false_eq_true, if_false]
    simp
  · rw [readAll_eq_splitParams]
    simp only [SplitParams, hV, Bool.false_eq_true, if_false]
    rw [splitAfterNL_no_newline (a ++ '\r' :: []) hx3]
    have hp : processLine DefaultParameters false [] (a ++ '\r' :: []) = .value a :=
      processLine_plain a ('\r' :: []) ha hpa (by decide)
    simp only [splitLoop, hp, Bool.false_eq_true, if_false]
    simp
  · rw [readAll_eq_splitParams]
    simp only [SplitParams, hV, Bool.false_eq_true, if_false]
    rw [splitAfterNL_append a [] hNoNlA]
    have hp : processLine DefaultParameters false [] (a ++ ['\n']) = .value a :=
      processLine_plain a ('\n' :: []) ha hpa (by decide)
    simp only [splitLoop, hp, processLine_nil, splitAfterNL, Bool.false_eq_true, if_false]
    simp

/-- Witness for C6 (amended) at one-character content on each side. -/
theorem C6_crlf_amended_witness :
    Reader.ReadAll DefaultParameters
        ('"' :: (['a'] ++ '\r' :: '\n' :: (['b'] ++ '"' :: '\n' :: []))) =
      ([['a'] ++ '\r' :: '\n' :: ['b']], none) ∧
    Reader.ReadAll DefaultParameters (['a'] ++ '\r' :: '\n' :: []) = ([['a']], none) ∧
    Reader.ReadAll DefaultParameters (['a'] ++ '\r' :: []) = ([['a']], none) ∧
    Reader.ReadAll DefaultParameters (['a'] ++ '\n' :: []) = ([['a']], none) :=
  C6_crlf_amended ['a'] ['b'] (by decide) (by decide) (by decide) (by decide)

example : Reader.ReadAll DefaultParameters ('a' :: '\n' :: 'b' :: '\r' :: '\n' :: 'c' :: []) =
    ([['a'], ['b'], ['c']], none) := by decide

example : Reader.ReadAll DefaultParameters
    ('A' :: '\n' :: '"' :: 'H' :: '\r' :: '\n' :: 'i' :: '"' :: '\n' :: 'B' :: '\r' :: '\n' :: []) =
    ([['A'], ['H', '\r', '\n', 'i'], ['B']], none) := by decide

example : Reader.ReadAll DefaultParameters
    ('a' :: ' ' :: '\\' :: '#' :: 'b' :: '\n' :: []) = ([['a', ' ', '#', 'b']], none) := by decide

example : Reader.ReadAll DefaultParameters ('"' :: '"' :: '\n' :: []) = ([[]], none) := by decide

example : Reader.ReadAll DefaultParameters ('"' :: 'x' :: '\n' :: []) =
    ([], some .noClosingRaw) := by decide

example : SplitParams DefaultParameters ('a' :: '\n' :: '\n' :: 'b' :: []) =
    ([['a'], ['b']], none) := by decide

example : Writer.WriteAll NewWriter [['a'], [' ', 'b'], []] =
    (['a', '\n', '"', ' ', 'b', '"', '\n', '"', '"', '\n'], none) := by decide

example : Writer.WriteComment NewWriter ['a'] ['C'] =
    (['a', '\t', '#', ' ', 'C', '\n'], none) := by decide

example : Writer.WriteComment NewWriter [] ['C'] =
    (['#', ' ', 'C', '\n'], none) := by decide

example : Writer.WriteAll NewWriter [[' ', '\\']] =
    (['"', ' ', '\\', '"', '\n'], none) := by decide

example : Reader.ReadAll DefaultParameters ['"', ' ', '\\', '"', '\n'] =
    ([], some .noClosingRaw) := by decide

example : Reader.ReadAll DefaultParameters
    ['"', '"', '"', '"', '"', '"', '"', '"'] =
    ([['"', '"', '"', '"', '"', '"']], none) := by decide

example : Reader.ReadAll DefaultParameters
    ['a', ' ', '\\', '#', 'A', '\n',
     '\\', ' ', '\\', '\\', '#', 'B', '\n',
     '#', '\n',
     '\\', '#', 'a', '\n'] =
    ([['a', ' ', '#', 'A'], ['\\', ' ', '\\', '#', 'B'], ['#', 'a']], none) := by decide

example : Reader.ReadAll DefaultParameters
    ['a', '\n', '"', '\n', '\\', '"', '\n', '"', '\n', 'b'] =
    ([['a'], ['\n', '"', '\n'], ['b']], none) := by decide

example : Reader.ReadAll DefaultParameters
    [' ', '"', 'a', '"', '\n', '"', ' ', 'b', '"', '\n', 'c'] =
    ([['a'], [' ', 'b'], ['c']], none) := by decide

example : Reader.ReadAll DefaultParameters
    ['"', 'f', 'o', 'o', '"', '\n', '"', 'b', 'a', 'r', '\r', '\n'] =
    ([], some .noClosingRaw) := by decide

example : Reader.ReadAll ⟨'θ', '"', 'λ', true⟩
    ['a', ' ', 'λ', 'θ', 'A', '\n',
     'λ', ' ', 'λ', 'λ', 'θ', 'B', '\n',
     'θ', '\n',
     'λ', 'θ', 'a', '\n'] =
    ([['a', ' ', 'θ', 'A'], ['λ', ' ', 'λ', 'θ', 'B'], ['θ', 'a']], none) := by decide

example : Writer.Write NewWriter ['\n', '"', '\n'] =
    (['"', '\n', '\\', '"', '\n', '"', '\n'], none) := by decide

example : Reader.ReadAll DefaultParameters
    ((Writer.WriteAll NewWriter [['b', 'b', '\n', 'b'], ['a', ',', 'a'], ['b', '"', 'b']]).1) =
    ([['b', 'b', '\n', 'b'], ['a', ',', 'a'], ['b', '"', 'b']], none) := by decide

end Lsv
